import Mathlib

/-!
Verification development for the `Ember` service of
`sails-generate-ember-blueprints` (file
`src/templates/advanced/api/services/Ember.js`).

The JavaScript module is a pure, synchronous data transformer.  We give a
shallow embedding: JS values become an inductive `Value` type, records become
ordered association lists of fields, and the `Ember` service's three
operations (`convertModelName` / `reverseModelName`, `linkAssociations`,
`buildResponse`) become Lean functions that mirror the source line by line.

External libraries (`lodash` string helpers and the `pluralize` inflector)
are not part of the repository; they are modelled from the spec's
description of their behaviour ("kebab-case", "camelCase", "plural
inflection", "singular inflection") on ordinary ASCII identifiers.  The
optional `sails.config.ember` override hooks are absent, matching the
premise of every naming claim ("with no override hooks configured").
-/

namespace Ember

/-! ## JavaScript values and records

A `Value` is a JSON-style dynamic value.  `null` stands for both JS `null`
and `undefined` (the distinction never matters to this module's logic;
the absent/present distinction is carried by `Option Value`). -/

inductive Value where
  | null : Value
  | num : Int → Value
  | str : String → Value
  | list : List Value → Value
  | obj : List (String × Value) → Value

/-- A plain JS object: an insertion-ordered list of fields. -/
abbrev Record := List (String × Value)

/-- `record[key]`: first binding of `key`, if any (`none` = JS `undefined`). -/
def Record.get : Record → String → Option Value
  | [], _ => none
  | (k, v) :: rest, key => if k == key then some v else Record.get rest key

/-- `record[key] = v`: JS assignment keeps an existing key's position,
otherwise appends the key at the end. -/
def Record.set : Record → String → Value → Record
  | [], key, v => [(key, v)]
  | (k, w) :: rest, key, v =>
    if k == key then (k, v) :: rest else (k, w) :: Record.set rest key v

/-- `delete record[key]`. -/
def Record.del (r : Record) (key : String) : Record :=
  r.filter (fun p => !(p.1 == key))

/-- `record[key]` on an arbitrary value: only objects have fields. -/
def Value.getField : Value → String → Option Value
  | .obj f, key => Record.get f key
  | _, _ => none

/-- `value[key] = v`: assignment on a non-object is a silent no-op in JS. -/
def Value.setField : Value → String → Value → Value
  | .obj f, key, v => .obj (Record.set f key v)
  | w, _, _ => w

/-- JS truthiness of a possibly-absent value (`undefined`, `null`, `0`,
`""` are falsy; arrays and objects are always truthy). -/
def truthyO : Option Value → Bool
  | none => false
  | some .null => false
  | some (.num n) => !(n == 0)
  | some (.str s) => !(s == "")
  | some (.list _) => true
  | some (.obj _) => true

/-- JS `x && x.length > 0` for a field value: only arrays and strings have a
numeric `length`. -/
def lengthPos : Option Value → Bool
  | some (.list l) => !l.isEmpty
  | some (.str s) => !(s == "")
  | _ => false

/-- JS strict equality `===` restricted to the primitive cases; arrays and
objects compare by reference, which a value embedding cannot observe, so
composite values are conservatively treated as distinct. -/
def jsEq : Value → Value → Bool
  | .null, .null => true
  | .num a, .num b => a == b
  | .str a, .str b => a == b
  | _, _ => false

/-- `===` on possibly-absent values (`undefined === undefined` is true). -/
def jsEqO : Option Value → Option Value → Bool
  | none, none => true
  | some a, some b => jsEq a b
  | _, _ => false

/-- JS string coercion of a value, as used when building hyperlink URLs
(ids are numbers or strings in practice; the array case is approximated). -/
def jsStrO : Option Value → String
  | none => "undefined"
  | some .null => "null"
  | some (.num n) => toString n
  | some (.str s) => s
  | some (.list _) => ""
  | some (.obj _) => "[object Object]"

/-- `Array.isArray`. -/
def Value.isArr : Value → Bool
  | .list _ => true
  | _ => false

/-- `if (!Array.isArray(records)) records = [records]`. -/
def toArr : Value → List Value
  | .list l => l
  | v => [v]

/-- The element list an array value contributes to `_.reduce`/`_.each`
(a lodash fold over a non-array object walks its values). -/
def toListVal : Value → List Value
  | .list l => l
  | .obj f => f.map (fun p => p.2)
  | _ => []

/-- `record.toJSON()` followed by `_.create({}, ...)`: the record's own
fields as a plain mapping (a shallow clone). -/
def Value.toRecord : Value → Record
  | .obj f => f
  | _ => []

/-! ## Naming transformer

`convertModelName` uses lodash `_.kebabCase` and `pluralize(name)`;
`reverseModelName` uses `_.camelCase`, `.toLowerCase()` and
`pluralize(name, 1)`.  Those library functions are modelled from the spec:
word splitting on separators and camelCase humps, kebab/camel re-joining,
and regular English plural/singular inflection on the trailing word.
All character classes are phrased over ASCII codes. -/

def isSepChar (c : Char) : Bool := decide (c.toNat = 45 ∨ c.toNat = 95 ∨ c.toNat = 32)

def isUpperC (c : Char) : Bool := decide (65 ≤ c.toNat ∧ c.toNat ≤ 90)

def isLowerC (c : Char) : Bool := decide (97 ≤ c.toNat ∧ c.toNat ≤ 122)

def isDigitC (c : Char) : Bool := decide (48 ≤ c.toNat ∧ c.toNat ≤ 57)

/-- Lowercase one ASCII character. -/
def lcChar (c : Char) : Char :=
  if isUpperC c then Char.ofNat (c.toNat + 32) else c

/-- Uppercase one ASCII character. -/
def ucChar (c : Char) : Char :=
  if isLowerC c then Char.ofNat (c.toNat - 32) else c

def lcWord (w : List Char) : List Char := w.map lcChar

/-- Modelled from the spec: lodash word splitting, cutting at separator
characters (`-`, `_`, space) and before each uppercase letter. -/
def wordsAux : List Char → List Char → List (List Char)
  | [], cur => if cur.isEmpty then [] else [cur.reverse]
  | c :: cs, cur =>
    if isSepChar c then
      if cur.isEmpty then wordsAux cs [] else cur.reverse :: wordsAux cs []
    else if isUpperC c then
      if cur.isEmpty then wordsAux cs [c] else cur.reverse :: wordsAux cs [c]
    else
      wordsAux cs (c :: cur)

def wordsL (s : List Char) : List (List Char) := wordsAux s []

/-- Join words with `-`. -/
def joinSep : List (List Char) → List Char
  | [] => []
  | [w] => w
  | w :: rest => w ++ '-' :: joinSep rest

/-- Modelled from the spec: `_.kebabCase` — lowercased words joined by `-`. -/
def kebabL (s : List Char) : List Char := joinSep ((wordsL s).map lcWord)

def kebabCase (s : String) : String := ⟨kebabL s.data⟩

/-- `_.capitalize` of one word: uppercase head, lowercase tail. -/
def capWord : List Char → List Char
  | [] => []
  | c :: cs => ucChar c :: lcWord cs

/-- Modelled from the spec: `_.camelCase` — first word lowercased, later
words capitalized, all concatenated. -/
def camelL (s : List Char) : List Char :=
  match wordsL s with
  | [] => []
  | w :: ws => lcWord w ++ (ws.map capWord).foldr (fun a b => a ++ b) []

def camelCase (s : String) : String := ⟨camelL s.data⟩

/-- `String.prototype.toLowerCase` (ASCII). -/
def toLowerStr (s : String) : String := ⟨s.data.map lcChar⟩

/-- Does the list start with the given character? -/
def startsWith1 : List Char → Char → Bool
  | x :: _, c => x == c
  | [], _ => false

def isVowelC (c : Char) : Bool :=
  c == 'a' || c == 'e' || c == 'i' || c == 'o' || c == 'u'

def isConsC (c : Char) : Bool := isLowerC c && !isVowelC c

def isConsCO : Option Char → Bool
  | some c => isConsC c
  | none => false

/-- The `[^aou]` character class of the inflector's `us` rules. -/
def notAouO : Option Char → Bool
  | some c => !(c == 'a' || c == 'o' || c == 'u')
  | none => false

/-- Does the reversed word start under the inflector's `(x|ch|ss|sh|zz)`
ending class? -/
def sibEndRev (r : List Char) : Bool :=
  startsWith1 r 'x' ||
    (startsWith1 r 'h' && (startsWith1 r.tail 'c' || startsWith1 r.tail 's')) ||
    (startsWith1 r 's' && startsWith1 r.tail 's') ||
    (startsWith1 r 'z' && startsWith1 r.tail 'z')

/-- Does the reversed word start under a `[^aou]us` ending? -/
def usRev (r : List Char) : Bool :=
  startsWith1 r 's' && startsWith1 r.tail 'u' && notAouO r.tail.tail.head?

/-- Does the reversed word start with `y` after a consonant (the word ends
in consonant + `y`)? -/
def consYRev (r : List Char) : Bool :=
  startsWith1 r 'y' && isConsCO r.tail.head?

/-- Does the reversed word start with `i` after a consonant? -/
def consIRev (r : List Char) : Bool :=
  startsWith1 r 'i' && isConsCO r.tail.head?

/-- Modelled from the spec: the pluralize library's regular plural rules,
on a reversed character list — `[^aou]us` and `(x|ch|ss|sh|zz)` endings
take `es`, other words already ending in `s` stay unchanged (the
library's `/s?$/ → s` default), a consonant + `y` ending takes `ies`,
everything else takes `s`.  Word-list irregulars (person/people, …) are
not modelled. -/
def pluralizeRev (r : List Char) : List Char :=
  if usRev r then 's' :: 'e' :: r
  else if sibEndRev r then 's' :: 'e' :: r
  else if startsWith1 r 's' then r
  else if consYRev r then 's' :: 'e' :: 'i' :: r.tail
  else 's' :: r

/-- Modelled from the spec: the pluralize library's regular singular
rules, on a reversed character list — consonant + `ies` becomes `y`,
`(x|ch|ss|sh|zz)(es)?` and `[^aou]us(es)?` keep the base (so
`statuses`/`status` both map to `status`, `boxes`/`box` to `box`), a
double `ss` stays, and otherwise a plain trailing `s` is dropped (so
`houses` maps to `house`).  Word-list irregulars are not modelled. -/
def singularizeRev (r : List Char) : List Char :=
  if startsWith1 r 's' && startsWith1 r.tail 'e' then
    let rest := r.tail.tail
    if consIRev rest then 'y' :: rest.tail
    else if sibEndRev rest then rest
    else if usRev rest then rest
    else r.tail
  else if usRev r then r
  else if startsWith1 r 's' && startsWith1 r.tail 's' then r
  else if startsWith1 r 's' then r.tail
  else r

def pluralizeL (w : List Char) : List Char := (pluralizeRev w.reverse).reverse

def singularizeL (w : List Char) : List Char := (singularizeRev w.reverse).reverse

/-- `pluralize(s)`. -/
def pluralizeStr (s : String) : String := ⟨pluralizeL s.data⟩

/-- `pluralize(s, 1)`. -/
def singularizeStr (s : String) : String := ⟨singularizeL s.data⟩

/-- `Ember.convertModelName` (source lines 17–27), with no
`sails.config.ember.convertModelName` override configured: kebab-case the
identity and pluralize unless `convertToPlural` is `false`. -/
def convertModelName (modelName : String) (convertToPlural : Bool := true) : String :=
  let kebabbed := kebabCase modelName
  if convertToPlural then pluralizeStr kebabbed else kebabbed

/-- `Ember.reverseModelName` (source lines 37–47), with no
`sails.config.ember.reverseModelName` override configured: camelCase,
lowercase, and singularize unless `convertToSingular` is `false`. -/
def reverseModelName (transformedModelName : String) (convertToSingular : Bool := true) : String :=
  let cameled := toLowerStr (camelCase transformedModelName)
  if convertToSingular then singularizeStr cameled else cameled

/-! ## Association metadata and the environment -/

/-- One association descriptor, as found in `req.options.associations`:
plain string fields, matching the source's duck-typed checks.  An absent
JS field is the empty string (both are falsy in every test the source
performs). -/
structure Assoc where
  «alias» : String
  type : String
  collection : String := ""
  model : String := ""
  via : String := ""
  through : String := ""
  «include» : String := ""

/-- A Waterline model as this module consumes it: `identity`, `globalId`
and its own association list (used by `linkAssociations`). -/
structure Model where
  identity : String
  globalId : String
  associations : List Assoc := []

/-- Ambient framework state read by the service: the `sails.models`
registry and `sails.config.blueprints.prefix` (named `pfx` here). -/
structure Env where
  models : String → Model
  pfx : String

/-- `assoc.collection || assoc.model`. -/
def collectionOrModel (a : Assoc) : String :=
  if a.collection == "" then a.model else a.collection

/-! ## `linkAssociations` (source lines 49–65) -/

/-- One iteration of `linkAssociations`' inner `_.each` (source lines
55–59): a `collection` association contributes one hyperlink. -/
def linkStep (env : Env) (modelPlural : String) (record : Value)
    (links : Record) (assoc : Assoc) : Record :=
  if assoc.type == "collection" then
    Record.set links assoc.«alias»
      (.str (env.pfx ++ "/" ++ modelPlural ++ "/" ++ jsStrO (record.getField "id")
        ++ "/" ++ assoc.«alias»))
  else links

/-- The `links` map one record gets: one hyperlink per `collection`
association of `model`, keyed by the association alias. -/
def recordLinks (env : Env) (modelPlural : String) (associations : List Assoc)
    (record : Value) : Record :=
  associations.foldl (linkStep env modelPlural record) []

/-- `Ember.linkAssociations`: wrap a lone record into an array, then give
each record a `links` field when at least one hyperlink was produced. -/
def linkAssociations (env : Env) (model : Model) (records : Value) : List Value :=
  let modelPlural := convertModelName model.identity
  (toArr records).map (fun record =>
    let links := recordLinks env modelPlural model.associations record
    if links.length > 0 then record.setField "links" (.obj links) else record)

/-! ## `buildResponse` (source lines 76–201) -/

/-- The response document under construction: top-level keys (in insertion
order) to arrays of records/ids. -/
abbrev Document := List (String × List Value)

def Document.getD (d : Document) (k : String) : List Value :=
  match d with
  | [] => []
  | (k2, v) :: rest => if k2 == k then v else Document.getD rest k

def Document.set : Document → String → List Value → Document
  | [], key, v => [(key, v)]
  | (k, w) :: rest, key, v =>
    if k == key then (k, v) :: rest else (k, w) :: Document.set rest key v

/-- `json.hasOwnProperty(k)`. -/
def Document.hasKey (d : Document) (k : String) : Bool :=
  d.any (fun p => p.1 == k)

/-- The association-loop body's effect on the record clone and the pending
`links` map (source lines 106–158, everything except the `json` bucket
appends).  The source never lets these computations read `json`, so the
step factors cleanly into a record part and a bucket part. -/
def assocRecStep (env : Env) (sideload : Bool) (associatedRecords : Record)
    (emberModelIdentity documentIdentifier : String)
    (st : Record × Record) (assoc : Assoc) : Record × Record :=
  let record := st.1
  let links := st.2
  if assoc.type == "collection" then
    let via0 := kebabCase emberModelIdentity
    -- check if inverse is using a different name
    let via := if !(via0 == singularizeStr assoc.via) then singularizeStr assoc.via else via0
    let record :=
      if sideload && assoc.«include» == "record" && truthyO (Record.get record assoc.«alias»)
          && lengthPos (Record.get record assoc.«alias») then
        -- reduce association on primary record to an array of IDs
        let v := (Record.get record assoc.«alias»).getD .null
        Record.set record assoc.«alias»
          (.list ((toArr v).map (fun rec => (rec.getField "id").getD .null)))
      else record
    let record :=
      if assoc.«include» == "index" && truthyO (Record.get associatedRecords assoc.«alias») then
        let rows := toListVal ((Record.get associatedRecords assoc.«alias»).getD .null)
        if !(assoc.through == "") then
          -- handle hasMany-Through associations (the source re-tests the
          -- same condition on its inner line; it is true here)
          if assoc.«include» == "index" && truthyO (Record.get associatedRecords assoc.«alias») then
            Record.set record assoc.«alias»
              (.list (rows.foldl
                (fun filtered rec =>
                  if jsEqO (rec.getField via) (Record.get record "id") then
                    filtered ++ [(rec.getField assoc.collection).getD .null]
                  else filtered)
                []))
          else record
        else
          Record.set record assoc.«alias»
            (.list (rows.foldl
              (fun filtered rec =>
                if jsEqO (rec.getField via) (Record.get record "id") then
                  filtered ++ [(rec.getField "id").getD .null]
                else filtered)
              []))
      else record
    if assoc.«include» == "link" then
      (Record.del record assoc.«alias»,
       Record.set links assoc.«alias»
         (.str (env.pfx ++ "/" ++ documentIdentifier ++ "/" ++ jsStrO (Record.get record "id")
           ++ "/" ++ assoc.«alias»)))
    else (record, links)
  else if assoc.type == "model" && truthyO (Record.get record assoc.«alias») then
    if sideload && assoc.«include» == "record" then
      let assocModel := env.models assoc.model
      let v := (Record.get record assoc.«alias»).getD .null
      let linkedRecords := linkAssociations env assocModel v
      -- reduce embedded record to id
      (Record.set record assoc.«alias»
        ((linkedRecords.head?.bind (fun r => r.getField "id")).getD .null), links)
    else (record, links)
  else (record, links)

/-- The association-loop body's effect on the sideload buckets (source
lines 118 and 148–149), reading the record clone as it stood before this
association's own field rewrite. -/
def assocJsonStep (env : Env) (sideload : Bool) (record : Record)
    (json : Document) (assoc : Assoc) : Document :=
  let assocModelIdentifier := convertModelName (env.models (collectionOrModel assoc)).globalId
  if assoc.type == "collection" then
    if sideload && assoc.«include» == "record" && truthyO (Record.get record assoc.«alias»)
        && lengthPos (Record.get record assoc.«alias») then
      -- sideload association records with links for 3rd level associations
      let assocModel := env.models assoc.collection
      let v := (Record.get record assoc.«alias»).getD .null
      Document.set json assocModelIdentifier
        (Document.getD json assocModelIdentifier ++ linkAssociations env assocModel v)
    else json
  else if assoc.type == "model" && truthyO (Record.get record assoc.«alias») then
    if sideload && assoc.«include» == "record" then
      -- the objects appended are the ones `linkAssociations` just touched
      let assocModel := env.models assoc.model
      let v := (Record.get record assoc.«alias»).getD .null
      Document.set json assocModelIdentifier
        (Document.getD json assocModelIdentifier ++ linkAssociations env assocModel v)
    else json
  else json

/-- One `_.each(associations, ...)` iteration of `prepareOneRecord`: the
bucket append (reading the pre-step record) paired with the record/links
rewrite. -/
def assocStep (env : Env) (sideload : Bool) (associatedRecords : Record)
    (emberModelIdentity documentIdentifier : String)
    (st : Document × Record × Record) (assoc : Assoc) : Document × Record × Record :=
  (assocJsonStep env sideload st.2.1 st.1 assoc,
   assocRecStep env sideload associatedRecords emberModelIdentity documentIdentifier
     (st.2.1, st.2.2) assoc)

/-- `prepareOneRecord` (source lines 101–163): clone the record, walk the
association descriptors, then attach the pending `links` map if non-empty. -/
def prepareOneRecord (env : Env) (sideload : Bool) (associatedRecords : Record)
    (emberModelIdentity documentIdentifier : String) (associations : List Assoc)
    (json : Document) (record : Value) : Document × Value :=
  let st := associations.foldl
    (assocStep env sideload associatedRecords emberModelIdentity documentIdentifier)
    (json, record.toRecord, [])
  let rec1 := st.2.1
  let links := st.2.2
  (st.1, .obj (if links.length > 0 then Record.set rec1 "links" (.obj links) else rec1))

/-- The record produced for one input record; `prepareOneRecord`'s record
result never depends on the bucket state, and this is that pure part. -/
def preparedRecord (env : Env) (sideload : Bool) (associatedRecords : Record)
    (emberModelIdentity documentIdentifier : String) (associations : List Assoc)
    (record : Value) : Value :=
  let st := associations.foldl
    (assocRecStep env sideload associatedRecords emberModelIdentity documentIdentifier)
    (record.toRecord, [])
  .obj (if st.2.length > 0 then Record.set st.1 "links" (.obj st.2) else st.1)

/-- One iteration of the bucket pre-registration loop (source lines
89–98): an embed-record association gets an empty sideload bucket under
its target model's document key — unless (a source quirk) the Document
already has a key equal to the association's alias. -/
def regStep (env : Env) (json : Document) (assoc : Assoc) : Document :=
  -- only sideload when the full records are to be included
  if assoc.«include» == "record" then
    let assocModelIdentifier := convertModelName (env.models (collectionOrModel assoc)).globalId
    if !(Document.hasKey json assoc.«alias») then
      Document.set json assocModelIdentifier []
    else json
  else json

/-- One iteration of the plural-input record loop (source lines 166–169):
`json[documentIdentifier] = json[documentIdentifier].concat(prepareOneRecord(record))`,
reading the root array before the call, as JS member-expression
evaluation does. -/
def recordFold (env : Env) (sideload : Bool) (associatedRecords : Record)
    (emberModelIdentity documentIdentifier : String) (associations : List Assoc)
    (json : Document) (record : Value) : Document :=
  let base := Document.getD json documentIdentifier
  let st := prepareOneRecord env sideload associatedRecords emberModelIdentity
    documentIdentifier associations json record
  Document.set st.1 documentIdentifier (base ++ [st.2])

/-- `buildResponse` up to (but not including) the two sideload
post-processing passes: root key registration, bucket pre-registration
(source lines 87–99) and the per-record loop (source lines 165–172). -/
def buildResponseRaw (env : Env) (model : Model) (records : Value)
    (associations : List Assoc) (sideload : Bool) (associatedRecords : Record) : Document :=
  let emberModelIdentity := model.globalId
  let documentIdentifier := convertModelName emberModelIdentity
  let json : Document := [(documentIdentifier, [])]
  let json :=
    if sideload then associations.foldl (regStep env) json
    else json
  if records.isArr then
    (toListVal records).foldl
      (recordFold env sideload associatedRecords emberModelIdentity documentIdentifier
        associations)
      json
  else
    let st := prepareOneRecord env sideload associatedRecords emberModelIdentity
      documentIdentifier associations json records
    Document.set st.1 documentIdentifier [st.2]

/-- `_.uniq(array, rec => rec.id)`: first occurrence per `id` key wins. -/
def uniqByIdAux : List (Option Value) → List Value → List Value
  | _, [] => []
  | seen, v :: rest =>
    let key := v.getField "id"
    if seen.any (fun k => jsEqO k key) then uniqByIdAux seen rest
    else v :: uniqByIdAux (key :: seen) rest

def uniqById (l : List Value) : List Value := uniqByIdAux [] l

/-- First sideload pass (source lines 177–186): drop empty buckets, then
deduplicate each remaining bucket by record id. -/
def pruneAndDedup (documentIdentifier : String) (json : Document) : Document :=
  json.filterMap (fun kv =>
    if kv.1 == documentIdentifier then some kv
    else if kv.2.length == 0 then none
    else some (kv.1, uniqById kv.2))

/-- `_.isNumber(v) || _.isString(v)`. -/
def isNumOrStr : Value → Bool
  | .num _ => true
  | .str _ => true
  | _ => false

/-- Second sideload pass (source lines 189–197): attach hyperlinks for the
sideloaded records' own relationships, resolving each bucket's model by
reverse name lookup.  Buckets of bare numbers/strings are skipped
(`array[0]` exists whenever the length check passes). -/
def linkSideloaded (env : Env) (documentIdentifier : String) (json : Document) : Document :=
  json.map (fun kv =>
    if kv.1 == documentIdentifier then kv
    else if kv.2.length > 0 then
      if !(isNumOrStr (kv.2.head?.getD .null)) then
        (kv.1, linkAssociations env (env.models (reverseModelName kv.1)) (.list kv.2))
      else kv
    else kv)

/-- `Ember.buildResponse` (source lines 76–201). -/
def buildResponse (env : Env) (model : Model) (records : Value)
    (associations : List Assoc) (sideload : Bool) (associatedRecords : Record) : Document :=
  let documentIdentifier := convertModelName model.globalId
  let json := buildResponseRaw env model records associations sideload associatedRecords
  if sideload then
    linkSideloaded env documentIdentifier (pruneAndDedup documentIdentifier json)
  else json

/-! ## Basic lemmas about records and documents -/

theorem Record.get_set_self (r : Record) (k : String) (v : Value) :
    Record.get (Record.set r k v) k = some v := by
  induction r with
  | nil => simp [Record.set, Record.get]
  | cons p rest ih =>
    by_cases h : p.1 = k
    · simp [Record.set, Record.get, h]
    · simp [Record.set, Record.get, h, ih]

theorem Record.get_set_ne (r : Record) (k k2 : String) (v : Value) (h : k2 ≠ k) :
    Record.get (Record.set r k v) k2 = Record.get r k2 := by
  induction r with
  | nil => simp [Record.set, Record.get, Ne.symm h]
  | cons p rest ih =>
    by_cases h1 : p.1 = k
    · subst h1
      simp [Record.set, Record.get, Ne.symm h]
    · by_cases h2 : p.1 = k2 <;> simp [Record.set, Record.get, h1, h2, h, ih]

theorem Record.get_del_self (r : Record) (k : String) :
    Record.get (Record.del r k) k = none := by
  induction r with
  | nil => simp [Record.del, Record.get]
  | cons p rest ih =>
    simp only [Record.del, List.filter_cons] at ih ⊢
    by_cases h : p.1 = k
    · simp [h, ih]
    · simp [Record.get, h, ih]

theorem Record.get_del_ne (r : Record) (k k2 : String) (h : k2 ≠ k) :
    Record.get (Record.del r k) k2 = Record.get r k2 := by
  induction r with
  | nil => simp [Record.del, Record.get]
  | cons p rest ih =>
    simp only [Record.del, List.filter_cons] at ih ⊢
    by_cases h1 : p.1 = k <;> by_cases h2 : p.1 = k2 <;>
      simp [Record.get, h1, h2, h, ih, Ne.symm h]

theorem Record.get_eq_some_ne_nil (r : Record) (k : String) (v : Value)
    (h : Record.get r k = some v) : r.length > 0 := by
  cases r with
  | nil => simp [Record.get] at h
  | cons p rest => simp

theorem Document.getD_set_self (d : Document) (k : String) (v : List Value) :
    Document.getD (Document.set d k v) k = v := by
  induction d with
  | nil => simp [Document.set, Document.getD]
  | cons p rest ih =>
    by_cases h : p.1 = k
    · simp [Document.set, Document.getD, h]
    · simp [Document.set, Document.getD, h, ih]

theorem Document.getD_set_ne (d : Document) (k k2 : String) (v : List Value) (h : k2 ≠ k) :
    Document.getD (Document.set d k v) k2 = Document.getD d k2 := by
  induction d with
  | nil => simp [Document.set, Document.getD, Ne.symm h]
  | cons p rest ih =>
    by_cases h1 : p.1 = k
    · subst h1
      simp [Document.set, Document.getD, Ne.symm h]
    · by_cases h2 : p.1 = k2 <;> simp [Document.set, Document.getD, h1, h2, h, ih]

/-- A push-style fold is an append of a `filterMap`. -/
theorem foldl_push_filterMap {α β : Type} (p : α → Bool) (g : α → β) :
    ∀ (l : List α) (acc : List β),
      l.foldl (fun acc2 x => if p x then acc2 ++ [g x] else acc2) acc
        = acc ++ l.filterMap (fun x => if p x then some (g x) else none) := by
  intro l
  induction l with
  | nil => simp
  | cons x xs ih =>
    intro acc
    by_cases h : p x <;> simp [h, ih]

/-- The computed inverse name in the collection branch (source lines
111–115) always comes out as the singular of `assoc.via`. -/
theorem via_eq_singular (emb v : String) :
    (if !(kebabCase emb == singularizeStr v) then singularizeStr v else kebabCase emb)
      = singularizeStr v := by
  by_cases h : kebabCase emb == singularizeStr v
  · simp only [h, Bool.not_true, Bool.false_eq_true, if_false]
    exact eq_of_beq h
  · simp [h]

/-- The same fact, in the `if`-normal form `simp` produces. -/
theorem via_eq_singular2 (emb v : String) :
    (if kebabCase emb = singularizeStr v then kebabCase emb else singularizeStr v)
      = singularizeStr v := by
  by_cases h : kebabCase emb = singularizeStr v <;> simp [h]

/-! ## A concrete worked setup

A `Post` model whose records embed `Comment` children; the comment model
itself has one collection association (`likes`), so sideloaded comments
receive hyperlinks. -/

def commentModel : Model :=
  { identity := "comment", globalId := "Comment",
    associations :=
      [{ «alias» := "likes", type := "collection", collection := "like",
         via := "comment", «include» := "link" }] }

def postModel : Model := { identity := "post", globalId := "Post" }

def exampleEnv : Env :=
  { models := fun id =>
      if id == "comment" then commentModel
      else if id == "post" then postModel
      else { identity := id, globalId := id },
    pfx := "/api" }

/-- The root model's association metadata: one embed-record collection
association to `Comment`. -/
def postAssocs : List Assoc :=
  [{ «alias» := "comments", type := "collection", collection := "comment",
     via := "post", «include» := "record" }]

/-- A root record with two embedded comment children. -/
def rootRecord : Value :=
  .obj [("id", .num 1),
        ("comments", .list [.obj [("id", .num 9)], .obj [("id", .num 10)]])]

/-- The sideloaded document the embedding computes for `rootRecord`. -/
def rootRecordDoc : Document :=
  buildResponse exampleEnv postModel rootRecord postAssocs true []

/-! ## Claims -/

/-- C6: with no override hook configured, `toDocumentKey` kebab-cases the
identity and pluralizes by default: `convertModelName "blogPost"` is
`"blog-posts"`, and with `pluralize = false` it is `"blog-post"`. -/
theorem c6_toDocumentKey_blogPost :
    convertModelName "blogPost" = "blog-posts"
      ∧ convertModelName "blogPost" false = "blog-post" :=
  ⟨rfl, rfl⟩

/-- C1 counterexample: for a single root record whose embed-record
collection association holds two related records, the returned Document
has two top-level keys (the root key and the one sideload bucket), not
three as the claim states. -/
theorem c1_counterexample_two_keys :
    ¬ (rootRecordDoc.map Prod.fst).length = 3 := by
  decide

/-- C1 (amended): same scenario, with "three top-level keys" corrected to
"two top-level keys": the Document holds exactly the root key and the
child bucket; the root record's association field became the two-element
id list `[9, 10]`; and the `comments` bucket holds exactly the two
(distinct, hence trivially deduplicated) child records, each with its
hyperlink `links` entry attached. -/
theorem c1_sideload_document :
    rootRecordDoc =
      [("posts", [.obj [("id", .num 1), ("comments", .list [.num 9, .num 10])]]),
       ("comments",
        [.obj [("id", .num 9),
               ("links", .obj [("likes", .str "/api/comments/9/likes")])],
         .obj [("id", .num 10),
               ("links", .obj [("likes", .str "/api/comments/10/likes")])]])] := rfl

/-- C4: for a `collection` association with `include = "index"`, a
`through` join-model makes `buildResponse` replace the record's
association field by the target-collection field values (in scan order) of
exactly the join-index rows whose inverse-key field (the singular of
`assoc.via`) equals the record's id; without a `through` model the rows'
own `id` fields are collected instead. -/
theorem c4_index_policy (env : Env) (model : Model) (f : Record)
    (a tc v th : String) (rows : List Value) (b : Bool) :
    (th ≠ "" →
      buildResponse env model (.obj f)
          [{ «alias» := a, type := "collection", collection := tc, via := v,
             through := th, «include» := "index" }] b [(a, .list rows)] =
        [(convertModelName model.globalId,
          [.obj (Record.set f a (.list (rows.filterMap (fun r =>
            if jsEqO (r.getField (singularizeStr v)) (Record.get f "id")
            then some ((r.getField tc).getD .null) else none))))])])
    ∧ (th = "" →
      buildResponse env model (.obj f)
          [{ «alias» := a, type := "collection", collection := tc, via := v,
             through := th, «include» := "index" }] b [(a, .list rows)] =
        [(convertModelName model.globalId,
          [.obj (Record.set f a (.list (rows.filterMap (fun r =>
            if jsEqO (r.getField (singularizeStr v)) (Record.get f "id")
            then some ((r.getField "id").getD .null) else none))))])]) := by
  constructor <;> intro h <;>
    cases b <;>
      simp [buildResponse, buildResponseRaw, regStep, recordFold, prepareOneRecord, assocStep,
        assocRecStep, assocJsonStep, via_eq_singular2, Record.get, truthyO, toListVal,
        Value.toRecord,
        Value.isArr, foldl_push_filterMap, Document.set, Document.getD, pruneAndDedup,
        linkSideloaded, h]

/-- C4 witness: the claim's own example — join-index
`[{fromId:1, toId:9}, {fromId:1, toId:10}, {fromId:2, toId:9}]` and root
record id `1` produce the field `[9, 10]`. -/
theorem c4_index_policy_witness :
    buildResponse exampleEnv postModel (.obj [("id", .num 1)])
        [{ «alias» := "things", type := "collection", collection := "toId",
           via := "fromId", through := "join", «include» := "index" }] false
        [("things", .list
          [.obj [("fromId", .num 1), ("toId", .num 9)],
           .obj [("fromId", .num 1), ("toId", .num 10)],
           .obj [("fromId", .num 2), ("toId", .num 9)]])] =
      [("posts", [.obj [("id", .num 1), ("things", .list [.num 9, .num 10])]])] := by
  have h := (c4_index_policy exampleEnv postModel [("id", .num 1)] "things" "toId"
    "fromId" "join"
    [.obj [("fromId", .num 1), ("toId", .num 9)],
     .obj [("fromId", .num 1), ("toId", .num 10)],
     .obj [("fromId", .num 2), ("toId", .num 9)]] false).1 (by decide)
  exact h.trans rfl

/-- C10: with `sideload = true`, an embed-record collection association
whose field is absent, `null`, or an empty list is left untouched (an
empty list is not collapsed to an id list), nothing is appended to its
sideload bucket, and — when no other association fills that bucket, here
because the association is the only one — the bucket is dropped from the
Document. -/
theorem c10_empty_embed_field (env : Env) (model : Model) (f : Record)
    (a tc m v th : String) (arecs : Record)
    (h1 : Record.get f a = none ∨ Record.get f a = some .null
      ∨ Record.get f a = some (.list []))
    (h2 : convertModelName (env.models (collectionOrModel
        { «alias» := a, type := "collection", collection := tc, model := m,
          via := v, through := th, «include» := "record" })).globalId
      ≠ convertModelName model.globalId) :
    buildResponse env model (.obj f)
        [{ «alias» := a, type := "collection", collection := tc, model := m,
           via := v, through := th, «include» := "record" }] true arecs =
      [(convertModelName model.globalId, [.obj f])] := by
  by_cases hc : convertModelName model.globalId = a <;>
    rcases h1 with h1 | h1 | h1 <;>
      simp [buildResponse, buildResponseRaw, regStep, recordFold, prepareOneRecord, assocStep,
        assocRecStep, assocJsonStep, Document.hasKey, Value.toRecord, Value.isArr, truthyO,
        lengthPos,
        Document.set, Document.getD, pruneAndDedup, linkSideloaded, h1, h2, Ne.symm h2, hc]

/-- C10 witness: a concrete run — root record whose `comments` field is an
empty list; the association field survives unchanged and no `comments`
bucket appears. -/
theorem c10_empty_embed_field_witness :
    buildResponse exampleEnv postModel
        (.obj [("id", .num 1), ("comments", .list [])]) postAssocs true [] =
      [("posts", [.obj [("id", .num 1), ("comments", .list [])]])] := by
  have h := c10_empty_embed_field exampleEnv postModel
    [("id", .num 1), ("comments", .list [])] "comments" "comment" "" "post" "" []
    (Or.inr (Or.inr rfl)) (by decide)
  exact h.trans rfl

/-! ## The naming round trip (claim C5)

Sails model identities are lowercase alphanumeric strings.  `identOk`
captures that domain, excluding only the four inflection-ambiguous ending
classes (consonant + `ie`, sibilant + `e`, `[^aou]use`, `[^aou]u`) on
which the singular rules collide with a regular plural form, so that
plural inflection is not self-inverse; outside small word lists the real
library has the same collisions. -/

/-- A lowercase ASCII letter or digit. -/
def lowAl (c : Char) : Bool := isLowerC c || isDigitC c

/-- The word (reversed) ends in consonant + `ie` (die, movie): its `s`
plural collides with the `ies → y` singular rule. -/
def endsConsIe (r : List Char) : Bool :=
  startsWith1 r 'e' && consIRev r.tail

/-- The word (reversed) ends in `(x|ch|ss|sh|zz)` + `e` (axe, niche): its
`s` plural collides with the `(x|ch|ss|sh|zz)es` singular rule. -/
def endsSibE (r : List Char) : Bool :=
  startsWith1 r 'e' && sibEndRev r.tail

/-- The word (reversed) ends in `[^aou]us` + `e` (abuse): its `s` plural
collides with the `[^aou]uses` singular rule. -/
def endsUse (r : List Char) : Bool :=
  startsWith1 r 'e' && usRev r.tail

/-- The word (reversed) ends in `[^aou]` + `u` (menu): its `s` plural
collides with the `[^aou]us` singular rule. -/
def endsHardU (r : List Char) : Bool :=
  startsWith1 r 'u' && notAouO r.tail.head?

/-- A well-formed model identity: non-empty, lowercase alphanumeric, and
avoiding the four inflection-ambiguous ending classes. -/
def identOk (m : String) : Bool :=
  !m.data.isEmpty && m.data.all lowAl &&
    !endsConsIe m.data.reverse && !endsSibE m.data.reverse &&
    !endsUse m.data.reverse && !endsHardU m.data.reverse

theorem lcChar_eq_self (c : Char) (h : lowAl c = true) : lcChar c = c := by
  simp only [lowAl, isLowerC, isDigitC, Bool.or_eq_true, decide_eq_true_eq] at h
  simp only [lcChar, isUpperC, decide_eq_true_eq]
  rw [if_neg]
  omega

theorem isSepChar_false (c : Char) (h : lowAl c = true) : isSepChar c = false := by
  simp only [lowAl, isLowerC, isDigitC, Bool.or_eq_true, decide_eq_true_eq] at h
  simp only [isSepChar, decide_eq_false_iff_not]
  omega

theorem isUpperC_false (c : Char) (h : lowAl c = true) : isUpperC c = false := by
  simp only [lowAl, isLowerC, isDigitC, Bool.or_eq_true, decide_eq_true_eq] at h
  simp only [isUpperC, decide_eq_false_iff_not]
  omega

theorem wordsAux_lowAl (l : List Char) (h : l.all lowAl = true) : ∀ cur : List Char,
    wordsAux l cur = if cur.isEmpty && l.isEmpty then [] else [cur.reverse ++ l] := by
  induction l with
  | nil =>
    intro cur
    cases cur <;> simp [wordsAux]
  | cons c cs ih =>
    intro cur
    simp only [List.all_cons, Bool.and_eq_true] at h
    rw [wordsAux, if_neg, if_neg]
    · rw [ih h.2 (c :: cur)]
      simp
    · simp [isUpperC_false c h.1]
    · simp [isSepChar_false c h.1]

theorem wordsL_lowAl (l : List Char) (h0 : l ≠ []) (h : l.all lowAl = true) :
    wordsL l = [l] := by
  rw [wordsL, wordsAux_lowAl l h []]
  simp [h0]

theorem lcWord_eq_self (l : List Char) (h : l.all lowAl = true) : lcWord l = l := by
  induction l with
  | nil => rfl
  | cons c cs ih =>
    rw [List.all_cons, Bool.and_eq_true] at h
    show lcChar c :: lcWord cs = c :: cs
    rw [lcChar_eq_self c h.1, ih h.2]

theorem kebabL_eq_self (l : List Char) (h0 : l ≠ []) (h : l.all lowAl = true) :
    kebabL l = l := by
  rw [kebabL, wordsL_lowAl l h0 h]
  simp only [List.map_cons, List.map_nil, lcWord_eq_self l h]
  rfl

theorem camelL_eq_self (l : List Char) (h0 : l ≠ []) (h : l.all lowAl = true) :
    camelL l = l := by
  rw [camelL, wordsL_lowAl l h0 h]
  simp [lcWord_eq_self l h]

theorem startsWith1_false (r : List Char) (c : Char) (h : r.head? ≠ some c) :
    startsWith1 r c = false := by
  cases r with
  | nil => rfl
  | cons x t =>
    simp only [List.head?_cons, ne_eq, Option.some.injEq] at h
    simp [startsWith1, h]

theorem tail_all (r : List Char) (h : r.all lowAl = true) : r.tail.all lowAl = true := by
  cases r with
  | nil => rfl
  | cons c t =>
    rw [List.all_cons, Bool.and_eq_true] at h
    exact h.2

/-- A list starting with `c` is `c` consed onto its tail. -/
theorem startsWith1_shape (r : List Char) (c : Char) (h : startsWith1 r c = true) :
    r = c :: r.tail := by
  cases r with
  | nil => simp [startsWith1] at h
  | cons x t =>
    simp only [startsWith1, beq_iff_eq] at h
    subst h
    rfl

/-- Pluralization keeps a word lowercase alphanumeric and non-empty. -/
theorem pluralizeRev_lowAl (r : List Char) (h : r.all lowAl = true) :
    (pluralizeRev r).all lowAl = true ∧ pluralizeRev r ≠ [] := by
  rw [pluralizeRev]
  by_cases h1 : usRev r
  · rw [if_pos h1]
    refine ⟨?_, by simp⟩
    simp only [List.all_cons, Bool.and_eq_true]
    exact ⟨by decide, by decide, h⟩
  · rw [if_neg h1]
    by_cases h2 : sibEndRev r
    · rw [if_pos h2]
      refine ⟨?_, by simp⟩
      simp only [List.all_cons, Bool.and_eq_true]
      exact ⟨by decide, by decide, h⟩
    · rw [if_neg h2]
      by_cases h3 : startsWith1 r 's'
      · rw [if_pos h3]
        refine ⟨h, ?_⟩
        rw [startsWith1_shape r 's' h3]
        simp
      · rw [if_neg h3]
        by_cases h4 : consYRev r
        · rw [if_pos h4]
          refine ⟨?_, by simp⟩
          simp only [List.all_cons, Bool.and_eq_true]
          exact ⟨by decide, by decide, by decide, tail_all r h⟩
        · rw [if_neg h4]
          refine ⟨?_, by simp⟩
          simp only [List.all_cons, Bool.and_eq_true]
          exact ⟨by decide, h⟩

/-- Regular singularization maps the regular plural of a word to the same
result as singularizing the word itself, away from the four
inflection-ambiguous ending classes. -/
theorem singularizeRev_pluralizeRev (r : List Char)
    (h1 : endsConsIe r = false) (h2 : endsSibE r = false)
    (h3 : endsUse r = false) (h4 : endsHardU r = false) :
    singularizeRev (pluralizeRev r) = singularizeRev r := by
  rw [pluralizeRev]
  by_cases hu : usRev r
  · rw [if_pos hu]
    have hs : startsWith1 r 's' = true := by
      simp only [usRev, Bool.and_eq_true] at hu; exact hu.1.1
    obtain ⟨t1, ht1⟩ : ∃ t, r = 's' :: t := ⟨r.tail, startsWith1_shape r 's' hs⟩
    subst ht1
    have hu2 : startsWith1 t1 'u' = true := by
      simp only [usRev, Bool.and_eq_true, List.tail_cons] at hu; exact hu.1.2
    obtain ⟨t2, ht2⟩ : ∃ t, t1 = 'u' :: t := ⟨t1.tail, startsWith1_shape t1 'u' hu2⟩
    subst ht2
    have hn : notAouO t2.head? = true := by
      simp only [usRev, Bool.and_eq_true, List.tail_cons] at hu; exact hu.2
    simp [singularizeRev, usRev, sibEndRev, consIRev, startsWith1, hn]
  · rw [if_neg hu]
    by_cases hsib : sibEndRev r
    · rw [if_pos hsib]
      simp only [sibEndRev, Bool.or_eq_true, Bool.and_eq_true] at hsib
      rcases hsib with ((hx | ⟨hh, hcs⟩) | ⟨hs1, hs2⟩) | ⟨hz1, hz2⟩
      · obtain ⟨t, ht⟩ : ∃ t, r = 'x' :: t := ⟨r.tail, startsWith1_shape r 'x' hx⟩
        subst ht
        simp [singularizeRev, usRev, sibEndRev, consIRev, startsWith1]
      · obtain ⟨t, ht⟩ : ∃ t, r = 'h' :: t := ⟨r.tail, startsWith1_shape r 'h' hh⟩
        subst ht
        simp only [List.tail_cons, Bool.or_eq_true] at hcs
        rcases hcs with hc | hc
        · obtain ⟨u, hu'⟩ : ∃ u, t = 'c' :: u := ⟨t.tail, startsWith1_shape t 'c' hc⟩
          subst hu'
          simp [singularizeRev, usRev, sibEndRev, consIRev, startsWith1]
        · obtain ⟨u, hu'⟩ : ∃ u, t = 's' :: u := ⟨t.tail, startsWith1_shape t 's' hc⟩
          subst hu'
          simp [singularizeRev, usRev, sibEndRev, consIRev, startsWith1]
      · obtain ⟨t, ht⟩ : ∃ t, r = 's' :: t := ⟨r.tail, startsWith1_shape r 's' hs1⟩
        subst ht
        simp only [List.tail_cons] at hs2
        obtain ⟨t', ht'⟩ : ∃ u, t = 's' :: u := ⟨t.tail, startsWith1_shape t 's' hs2⟩
        subst ht'
        simp [singularizeRev, usRev, sibEndRev, consIRev, startsWith1]
      · obtain ⟨t, ht⟩ : ∃ t, r = 'z' :: t := ⟨r.tail, startsWith1_shape r 'z' hz1⟩
        subst ht
        simp only [List.tail_cons] at hz2
        obtain ⟨t', ht'⟩ : ∃ u, t = 'z' :: u := ⟨t.tail, startsWith1_shape t 'z' hz2⟩
        subst ht'
        simp [singularizeRev, usRev, sibEndRev, consIRev, startsWith1]
    · rw [if_neg hsib]
      by_cases hs : startsWith1 r 's'
      · rw [if_pos hs]
      · rw [if_neg hs]
        have hs' : startsWith1 r 's' = false := by
          simpa using hs
        by_cases hy : consYRev r
        · rw [if_pos hy]
          have hy1 : startsWith1 r 'y' = true := by
            simp only [consYRev, Bool.and_eq_true] at hy; exact hy.1
          obtain ⟨t, ht⟩ : ∃ t, r = 'y' :: t := ⟨r.tail, startsWith1_shape r 'y' hy1⟩
          subst ht
          have hc : isConsCO t.head? = true := by
            simp only [consYRev, Bool.and_eq_true, List.tail_cons] at hy; exact hy.2
          simp [singularizeRev, usRev, sibEndRev, consIRev, startsWith1, hc]
        · rw [if_neg hy]
          by_cases he : startsWith1 r 'e'
          · obtain ⟨t, ht⟩ : ∃ t, r = 'e' :: t := ⟨r.tail, startsWith1_shape r 'e' he⟩
            subst ht
            simp only [endsConsIe, endsSibE, endsUse, startsWith1, List.tail_cons,
              beq_self_eq_true, Bool.true_and] at h1 h2 h3
            have hru : usRev ('e' :: t) = false := by
              simp [usRev, startsWith1]
            simp [singularizeRev, startsWith1, h1, h2, h3, hru]
          · have he' : startsWith1 r 'e' = false := by
              simpa using he
            have hh4 : (startsWith1 r 'u' && notAouO r.tail.head?) = false := h4
            have hA : startsWith1 ('s' :: r) 's' = true := rfl
            have hrp : usRev ('s' :: r) = false := by
              simp only [usRev, List.tail_cons, hA, Bool.true_and]
              exact hh4
            have hrr : usRev r = false := by
              simp only [usRev]
              rw [hs', Bool.false_and, Bool.false_and]
            simp [singularizeRev, hA, he', hs', hrp, hrr]

theorem all_reverse_eq (p : Char → Bool) (l : List Char) :
    (l.reverse.all p) = l.all p := by
  simp [List.all_eq_true]

theorem map_lcChar_eq_self (l : List Char) (h : l.all lowAl = true) :
    l.map lcChar = l :=
  lcWord_eq_self l h

/-- C5: for every well-formed identity `m` (lowercase alphanumeric, no
override hooks configured, outside the four inflection-ambiguous ending
classes), `toModelIdentity (toDocumentKey m)` equals the singular
camelCase-then-lowercased canonical form of `m` — a round trip up to
case and plural normalization. -/
theorem c5_name_round_trip (m : String) (h : identOk m = true) :
    reverseModelName (convertModelName m)
      = singularizeStr (toLowerStr (camelCase m)) := by
  rw [identOk] at h
  simp only [Bool.and_eq_true, Bool.not_eq_true'] at h
  obtain ⟨⟨⟨⟨⟨h1, hall⟩, hcie⟩, hsib⟩, huse⟩, hhu⟩ := h
  have hne : m.data ≠ [] := by
    simpa using h1
  have hrall : (m.data.reverse.all lowAl) = true := by
    rw [all_reverse_eq]; exact hall
  have hpl := pluralizeRev_lowAl m.data.reverse hrall
  have hpall : (pluralizeL m.data).all lowAl = true := by
    rw [pluralizeL, all_reverse_eq]; exact hpl.1
  have hpne : pluralizeL m.data ≠ [] := by
    rw [pluralizeL]
    simpa using hpl.2
  have hL : reverseModelName (convertModelName m)
      = (⟨singularizeL ((camelL (pluralizeL (kebabL m.data))).map lcChar)⟩ : String) := rfl
  have hR : singularizeStr (toLowerStr (camelCase m))
      = (⟨singularizeL ((camelL m.data).map lcChar)⟩ : String) := rfl
  rw [hL, hR, kebabL_eq_self m.data hne hall,
    camelL_eq_self (pluralizeL m.data) hpne hpall,
    camelL_eq_self m.data hne hall,
    map_lcChar_eq_self (pluralizeL m.data) hpall,
    map_lcChar_eq_self m.data hall]
  simp only [singularizeL, pluralizeL, List.reverse_reverse]
  rw [singularizeRev_pluralizeRev m.data.reverse hcie hsib huse hhu]

/-- C5 witness: the identities `"house"` and `"status"` are well-formed
and round-trip (the plural forms are `houses` and `statuses`; both
reverse to the canonical singular identity). -/
theorem c5_name_round_trip_witness :
    identOk "house" = true ∧
      reverseModelName (convertModelName "house")
        = singularizeStr (toLowerStr (camelCase "house")) ∧
    identOk "status" = true ∧
      reverseModelName (convertModelName "status")
        = singularizeStr (toLowerStr (camelCase "status")) :=
  ⟨by decide, c5_name_round_trip "house" (by decide),
    by decide, c5_name_round_trip "status" (by decide)⟩

/-! ## `linkAssociations` properties (claim C7) -/

/-- Folding further `linkStep`s never disturbs a key none of them aliases. -/
theorem foldl_linkStep_get_preserved (env : Env) (mp : String) (record : Value)
    (t : List Assoc) (key : String) (hk : ∀ b ∈ t, b.«alias» ≠ key) :
    ∀ links : Record,
      Record.get (t.foldl (linkStep env mp record) links) key = Record.get links key := by
  induction t with
  | nil => intro links; rfl
  | cons b bs ih =>
    intro links
    rw [List.foldl_cons, ih (fun x hx => hk x (List.mem_cons_of_mem b hx))]
    rw [linkStep]
    by_cases hb : b.type == "collection"
    · rw [if_pos hb, Record.get_set_ne _ _ _ _ (Ne.symm (hk b (List.mem_cons_self b bs)))]
    · rw [if_neg hb]

/-- With pairwise-distinct aliases, every `collection` association ends up
with its hyperlink in the links map, under its own alias. -/
theorem recordLinks_get (env : Env) (mp : String) (assocs : List Assoc) (record : Value)
    (hnd : (assocs.map (fun x => x.«alias»)).Nodup)
    (a : Assoc) (ha : a ∈ assocs) (ht : a.type = "collection") :
    Record.get (recordLinks env mp assocs record) a.«alias»
      = some (.str (env.pfx ++ "/" ++ mp ++ "/" ++ jsStrO (record.getField "id")
          ++ "/" ++ a.«alias»)) := by
  obtain ⟨s, t, rfl⟩ := List.append_of_mem ha
  rw [recordLinks, List.foldl_append, List.foldl_cons]
  have hk : ∀ b ∈ t, b.«alias» ≠ a.«alias» := by
    intro b hb heq
    rw [List.map_append, List.map_cons] at hnd
    have := (List.nodup_append.mp hnd).2.1
    rw [List.nodup_cons] at this
    exact this.1 (heq ▸ List.mem_map_of_mem (fun x => x.«alias») hb)
  rw [foldl_linkStep_get_preserved env mp record t a.«alias» hk]
  rw [linkStep, if_pos (by simp [ht])]
  exact Record.get_set_self _ _ _

/-- If no association is a `collection`, no hyperlink is generated. -/
theorem recordLinks_nil (env : Env) (mp : String) (assocs : List Assoc) (record : Value)
    (h : ∀ a ∈ assocs, a.type ≠ "collection") :
    recordLinks env mp assocs record = [] := by
  rw [recordLinks]
  induction assocs with
  | nil => rfl
  | cons b bs ih =>
    rw [List.foldl_cons, linkStep,
      if_neg (by simp [h b (List.mem_cons_self b bs)])]
    exact ih (fun x hx => h x (List.mem_cons_of_mem b hx))

/-- C7: `linkAssociations` always returns a sequence (a lone record is
treated as the one-element sequence, and output length matches input
length); with pairwise-distinct aliases, every record gets, for each
`collection` association of the model, a
`<blueprint-prefix>/<pluralized-model-key>/<record-id>/<alias>` hyperlink
keyed by that alias inside an attached `links` field; and when no
hyperlink is generated no `links` field is attached (records pass through
unchanged). -/
theorem c7_linkAssociations (env : Env) (model : Model)
    (hnd : (model.associations.map (fun x => x.«alias»)).Nodup) :
    (∀ v : Value, v.isArr = false →
      linkAssociations env model v = linkAssociations env model (.list [v]))
    ∧ (∀ l : List Value, (linkAssociations env model (.list l)).length = l.length)
    ∧ (∀ a ∈ model.associations, a.type = "collection" →
        ∀ (l : List Value) (i : Nat) (fields : Record), l[i]? = some (.obj fields) →
          ∃ L : Record,
            (linkAssociations env model (.list l))[i]?
                = some (.obj (Record.set fields "links" (.obj L)))
              ∧ Record.get L a.«alias» = some (.str (env.pfx ++ "/"
                  ++ convertModelName model.identity ++ "/"
                  ++ jsStrO (Record.get fields "id") ++ "/" ++ a.«alias»)))
    ∧ ((∀ a ∈ model.associations, a.type ≠ "collection") →
        ∀ l : List Value, linkAssociations env model (.list l) = l) := by
  refine ⟨?_, ?_, ?_, ?_⟩
  · intro v hv
    cases v <;> simp_all [Value.isArr, linkAssociations, toArr]
  · intro l
    simp [linkAssociations, toArr]
  · intro a ha ht l i fields hi
    refine ⟨recordLinks env (convertModelName model.identity) model.associations (.obj fields),
      ?_, ?_⟩
    · rw [linkAssociations]
      show (List.map _ (toArr (.list l)))[i]? = _
      rw [toArr, List.getElem?_map, hi]
      have hget := recordLinks_get env (convertModelName model.identity)
        model.associations (.obj fields) hnd a ha ht
      have hpos := Record.get_eq_some_ne_nil _ _ _ hget
      simp [Value.setField, hpos]
    · have hget := recordLinks_get env (convertModelName model.identity)
        model.associations (.obj fields) hnd a ha ht
      simpa [Value.getField] using hget
  · intro h l
    rw [linkAssociations]
    show List.map _ (toArr (.list l)) = l
    rw [toArr]
    have : ∀ v ∈ l, (fun record =>
        let links := recordLinks env (convertModelName model.identity)
          model.associations record
        if links.length > 0 then record.setField "links" (.obj links) else record) v = v := by
      intro v _
      simp [recordLinks_nil env _ _ v h]
    exact List.map_congr_left this |>.trans (List.map_id l)

/-- C7 witness: a concrete comment record receives its `likes` hyperlink. -/
theorem c7_linkAssociations_witness :
    ∃ L : Record,
      (linkAssociations exampleEnv commentModel (.list [.obj [("id", .num 9)]]))[0]?
          = some (.obj (Record.set [("id", .num 9)] "links" (.obj L)))
        ∧ Record.get L "likes" = some (.str "/api/comments/9/likes") := by
  have h := (c7_linkAssociations exampleEnv commentModel (by decide)).2.2.1
    { «alias» := "likes", type := "collection", collection := "like",
      via := "comment", «include» := "link" }
    (List.mem_cons_self _ _) rfl
    [.obj [("id", .num 9)]] 0 [("id", .num 9)] rfl
  exact h

/-! ## Batch/single equivalence (claim C9) -/

/-- The record/links component of the association fold never depends on
the bucket state. -/
theorem foldl_assocStep_snd (env : Env) (sideload : Bool) (arecs : Record)
    (emb doc : String) (assocs : List Assoc) :
    ∀ (j : Document) (r l : Record),
      (assocs.foldl (assocStep env sideload arecs emb doc) (j, r, l)).2
        = assocs.foldl (assocRecStep env sideload arecs emb doc) (r, l) := by
  induction assocs with
  | nil => intro j r l; rfl
  | cons b bs ih =>
    intro j r l
    rw [List.foldl_cons, List.foldl_cons]
    exact ih _ _ _

/-- `prepareOneRecord`'s record output is the pure `preparedRecord`. -/
theorem prepareOneRecord_snd (env : Env) (sideload : Bool) (arecs : Record)
    (emb doc : String) (assocs : List Assoc) (json : Document) (record : Value) :
    (prepareOneRecord env sideload arecs emb doc assocs json record).2
      = preparedRecord env sideload arecs emb doc assocs record := by
  rw [prepareOneRecord, preparedRecord]
  have h := foldl_assocStep_snd env sideload arecs emb doc assocs json record.toRecord []
  simp only [h]

/-- Bucket pre-registration never touches the root key's (empty) array. -/
theorem reg_getD_doc (env : Env) (doc : String) (assocs : List Assoc) :
    ∀ json : Document, Document.getD json doc = [] →
      Document.getD (assocs.foldl (regStep env) json) doc = [] := by
  induction assocs with
  | nil => intro json h; exact h
  | cons b bs ih =>
    intro json h
    rw [List.foldl_cons]
    refine ih _ ?_
    rw [regStep]
    by_cases h1 : b.«include» == "record"
    · rw [if_pos h1]
      by_cases h2 : !(Document.hasKey json b.«alias»)
      · rw [if_pos h2]
        by_cases h3 : doc = convertModelName (env.models (collectionOrModel b)).globalId
        · rw [h3, Document.getD_set_self]
        · rw [Document.getD_set_ne _ _ _ _ h3, h]
      · rw [if_neg h2, h]
    · rw [if_neg h1, h]

/-- Root-key lookup is invariant under a `filterMap` that preserves keys
and maps root-key entries to themselves. -/
theorem getD_filterMap_keyPreserving (doc : String)
    (G : (String × List Value) → Option (String × List Value))
    (hfst : ∀ kv kv2, G kv = some kv2 → kv2.1 = kv.1)
    (hdoc : ∀ kv, kv.1 = doc → G kv = some kv) :
    ∀ json : Document, Document.getD (json.filterMap G) doc = Document.getD json doc := by
  intro json
  induction json with
  | nil => rfl
  | cons kv rest ih =>
    obtain ⟨k2, arr⟩ := kv
    rw [List.filterMap_cons]
    by_cases h : k2 = doc
    · rw [hdoc (k2, arr) h]
      simp only [Document.getD]
      rw [if_pos (by simp [h]), if_pos (by simp [h])]
    · cases hg : G (k2, arr) with
      | none =>
        rw [ih]
        simp only [Document.getD]
        rw [if_neg (by simp [h])]
      | some kv2 =>
        have h2 : kv2.1 = k2 := hfst _ _ hg
        obtain ⟨k3, arr2⟩ := kv2
        have h3 : k3 = k2 := h2
        simp only [Document.getD]
        rw [if_neg (by simp [h3, h]), if_neg (by simp [h]), ih]

/-- Root-key lookup is invariant under a `map` that preserves keys and
fixes root-key entries. -/
theorem getD_map_keyPreserving (doc : String)
    (F : (String × List Value) → (String × List Value))
    (hfst : ∀ kv, (F kv).1 = kv.1)
    (hdoc : ∀ kv, kv.1 = doc → F kv = kv) :
    ∀ json : Document, Document.getD (json.map F) doc = Document.getD json doc := by
  intro json
  induction json with
  | nil => rfl
  | cons kv rest ih =>
    obtain ⟨k2, arr⟩ := kv
    rw [List.map_cons]
    by_cases h : k2 = doc
    · rw [hdoc (k2, arr) h]
      simp only [Document.getD]
      rw [if_pos (by simp [h]), if_pos (by simp [h])]
    · obtain ⟨⟨k3, arr2⟩, hF⟩ : ∃ p, F (k2, arr) = p := ⟨_, rfl⟩
      rw [hF]
      have h3 : k3 = k2 := by
        have h2 := hfst (k2, arr)
        rw [hF] at h2
        exact h2
      simp only [Document.getD]
      rw [if_neg (by simp [h3, h]), if_neg (by simp [h]), ih]

/-- The first sideload pass keeps the root key's content. -/
theorem getD_pruneAndDedup (doc : String) (json : Document) :
    Document.getD (pruneAndDedup doc json) doc = Document.getD json doc := by
  rw [pruneAndDedup]
  refine getD_filterMap_keyPreserving doc _ ?_ ?_ json
  · intro kv kv2 hg
    by_cases h1 : kv.1 == doc
    · rw [if_pos h1] at hg
      cases hg
      rfl
    · rw [if_neg h1] at hg
      by_cases h2 : kv.2.length == 0
      · rw [if_pos h2] at hg
        cases hg
      · rw [if_neg h2] at hg
        cases hg
        rfl
  · intro kv h
    rw [if_pos (by simp [h])]

/-- The second sideload pass keeps the root key's content. -/
theorem getD_linkSideloaded (env : Env) (doc : String) (json : Document) :
    Document.getD (linkSideloaded env doc json) doc = Document.getD json doc := by
  rw [linkSideloaded]
  refine getD_map_keyPreserving doc _ ?_ ?_ json
  · intro kv
    by_cases h1 : kv.1 == doc
    · rw [if_pos h1]
    · rw [if_neg h1]
      by_cases h2 : kv.2.length > 0
      · rw [if_pos h2]
        by_cases h3 : !(isNumOrStr (kv.2.head?.getD .null))
        · rw [if_pos h3]
        · rw [if_neg h3]
      · rw [if_neg h2]
  · intro kv h
    rw [if_pos (by simp [h])]

/-- `buildResponse` keeps the root key's raw content through both
sideload passes. -/
theorem getD_buildResponse (env : Env) (model : Model) (records : Value)
    (assocs : List Assoc) (side : Bool) (arecs : Record) :
    Document.getD (buildResponse env model records assocs side arecs)
        (convertModelName model.globalId)
      = Document.getD (buildResponseRaw env model records assocs side arecs)
        (convertModelName model.globalId) := by
  rw [buildResponse]
  by_cases h : side
  · simp only [h, if_true]
    rw [getD_linkSideloaded, getD_pruneAndDedup]
  · simp only [h, Bool.false_eq_true, if_false]

/-- C9: `buildResponse` processes batch input per-record exactly like
single input — a lone (non-array) record produces the same Document as
the one-element list holding it, and a two-element batch puts, under the
root document key, exactly the concatenation of the two per-record
results in input order. -/
theorem c9_batch_single (env : Env) (model : Model) (r r1 r2 : Value)
    (assocs : List Assoc) (side : Bool) (arecs : Record) (hr : r.isArr = false) :
    buildResponse env model r assocs side arecs
        = buildResponse env model (.list [r]) assocs side arecs
    ∧ Document.getD (buildResponse env model (.list [r1, r2]) assocs side arecs)
          (convertModelName model.globalId)
        = Document.getD (buildResponse env model (.list [r1]) assocs side arecs)
            (convertModelName model.globalId)
          ++ Document.getD (buildResponse env model (.list [r2]) assocs side arecs)
            (convertModelName model.globalId) := by
  have hbase : Document.getD
      (if side then List.foldl (regStep env) [(convertModelName model.globalId, [])] assocs
       else [(convertModelName model.globalId, [])])
      (convertModelName model.globalId) = [] := by
    by_cases hside : side
    · simp only [hside, if_true]
      exact reg_getD_doc env _ assocs _ (by simp [Document.getD])
    · simp only [hside, Bool.false_eq_true, if_false]
      simp [Document.getD]
  constructor
  · have hraw : buildResponseRaw env model r assocs side arecs
        = buildResponseRaw env model (.list [r]) assocs side arecs := by
      rw [buildResponseRaw, buildResponseRaw]
      simp only [hr, Bool.false_eq_true, if_false,
        (show Value.isArr (Value.list [r]) = true from rfl), if_true,
        (show toListVal (Value.list [r]) = [r] from rfl),
        List.foldl_cons, List.foldl_nil, recordFold, hbase, List.nil_append]
    rw [buildResponse, buildResponse, hraw]
  · rw [getD_buildResponse, getD_buildResponse, getD_buildResponse,
      buildResponseRaw, buildResponseRaw, buildResponseRaw]
    simp only [Value.isArr, toListVal, List.foldl_cons, List.foldl_nil, recordFold,
      if_true, hbase, List.nil_append, Document.getD_set_self,
      prepareOneRecord_snd, List.singleton_append]

/-- C9 witness: a concrete single record against its one-element batch. -/
theorem c9_batch_single_witness :
    buildResponse exampleEnv postModel rootRecord postAssocs true []
        = buildResponse exampleEnv postModel (.list [rootRecord]) postAssocs true []
    ∧ Document.getD (buildResponse exampleEnv postModel
          (.list [rootRecord, rootRecord]) postAssocs true []) "posts"
        = Document.getD (buildResponse exampleEnv postModel
            (.list [rootRecord]) postAssocs true []) "posts"
          ++ Document.getD (buildResponse exampleEnv postModel
            (.list [rootRecord]) postAssocs true []) "posts" :=
  c9_batch_single exampleEnv postModel rootRecord rootRecord rootRecord postAssocs true []
    (by decide)

/-! ## Sideload bucket invariants (claim C2) -/

/-- A record's identifier, as the dedup pass reads it. -/
def getId (v : Value) : Option Value := v.getField "id"

/-- First-occurrence deduplication of a key sequence (the spec-side
description of what `_.uniq(array, rec => rec.id)` does to the ids). -/
def dedupFirstAux : List (Option Value) → List (Option Value) → List (Option Value)
  | _, [] => []
  | seen, k :: rest =>
    if seen.any (fun k2 => jsEqO k2 k) then dedupFirstAux seen rest
    else k :: dedupFirstAux (k :: seen) rest

def dedupFirst (l : List (Option Value)) : List (Option Value) := dedupFirstAux [] l

theorem map_getId_uniqByIdAux (l : List Value) :
    ∀ seen : List (Option Value),
      (uniqByIdAux seen l).map getId = dedupFirstAux seen (l.map getId) := by
  induction l with
  | nil => intro seen; rfl
  | cons v rest ih =>
    intro seen
    rw [List.map_cons, uniqByIdAux, dedupFirstAux]
    by_cases h : seen.any (fun k => jsEqO k (v.getField "id"))
    · rw [if_pos (by exact h), if_pos (by exact h)]
      exact ih seen
    · rw [if_neg (by exact h), if_neg (by exact h), List.map_cons, ih]
      rfl

theorem uniqByIdAux_invariant (l : List Value) :
    ∀ seen : List (Option Value),
      (∀ v ∈ uniqByIdAux seen l, ∀ k ∈ seen, jsEqO k (getId v) = false)
      ∧ List.Pairwise (fun a b => jsEqO (getId a) (getId b) = false) (uniqByIdAux seen l) := by
  induction l with
  | nil =>
    intro seen
    exact ⟨(by intro v hv; cases hv), List.Pairwise.nil⟩
  | cons v rest ih =>
    intro seen
    rw [uniqByIdAux]
    by_cases h : seen.any (fun k => jsEqO k (v.getField "id"))
    · rw [if_pos (by exact h)]
      exact ih seen
    · rw [if_neg (by exact h)]
      have hany : (seen.any fun k => jsEqO k (v.getField "id")) = false := by
        simpa using h
      have hseen : ∀ k ∈ seen, jsEqO k (getId v) = false := by
        intro k hk
        have h2 := List.any_eq_false.mp hany k hk
        simpa [getId] using h2
      constructor
      · intro w hw k hk
        cases hw with
        | head => exact hseen k hk
        | tail _ hw2 =>
          exact (ih (getId v :: seen)).1 w hw2 k (List.mem_cons_of_mem _ hk)
      · refine List.Pairwise.cons ?_ (ih (getId v :: seen)).2
        intro w hw
        exact (ih (getId v :: seen)).1 w hw (getId v) (List.mem_cons_self _ _)

theorem uniqById_ne_nil (l : List Value) (h : l ≠ []) : uniqById l ≠ [] := by
  cases l with
  | nil => exact absurd rfl h
  | cons v rest =>
    rw [uniqById, uniqByIdAux]
    simp

/-- Attaching (or not attaching) a `links` field never changes a record's
identifier. -/
theorem getId_linkElem (v : Value) (links : Record) :
    getId (if links.length > 0 then v.setField "links" (.obj links) else v) = getId v := by
  by_cases h : links.length > 0
  · rw [if_pos h]
    cases v <;> simp [getId, Value.setField, Value.getField] <;>
      exact Record.get_set_ne _ _ _ _ (by decide)
  · rw [if_neg h]

theorem map_getId_linkAssociations (env : Env) (M : Model) (arr : List Value) :
    (linkAssociations env M (.list arr)).map getId = arr.map getId := by
  rw [linkAssociations]
  show (List.map _ (toArr (.list arr))).map getId = arr.map getId
  rw [toArr, List.map_map]
  refine List.map_congr_left ?_
  intro v _
  exact getId_linkElem v _

theorem length_linkAssociations (env : Env) (M : Model) (arr : List Value) :
    (linkAssociations env M (.list arr)).length = arr.length := by
  rw [linkAssociations]
  show (List.map _ (toArr (.list arr))).length = arr.length
  rw [toArr, List.length_map]

/-- Membership in the post-prune Document, away from the root key, comes
from a non-empty raw bucket via `uniqById`. -/
theorem mem_pruneAndDedup (doc : String) (json : Document) (k : String) (arr : List Value)
    (h : (k, arr) ∈ pruneAndDedup doc json) (hk : k ≠ doc) :
    ∃ raw0, (k, raw0) ∈ json ∧ arr = uniqById raw0 ∧ raw0 ≠ [] := by
  rw [pruneAndDedup] at h
  obtain ⟨kv0, hmem, heq⟩ := List.mem_filterMap.mp h
  obtain ⟨k0, raw0⟩ := kv0
  by_cases h1 : k0 = doc
  · rw [if_pos (by simp [h1])] at heq
    have hp := Option.some.inj heq
    injection hp with hfst hsnd
    exact absurd (hfst ▸ h1) hk
  · rw [if_neg (by simp [h1])] at heq
    by_cases h2 : (raw0.length == 0) = true
    · rw [if_pos h2] at heq
      cases heq
    · rw [if_neg h2] at heq
      have hp := Option.some.inj heq
      injection hp with hfst hsnd
      refine ⟨raw0, hfst ▸ hmem, hsnd.symm, ?_⟩
      intro hnil
      exact h2 (by simp [hnil])

/-- Membership in the post-link Document, away from the root key, comes
from the pruned Document, with the bucket at most re-linked. -/
theorem mem_linkSideloaded (env : Env) (doc : String) (json : Document)
    (k : String) (arr : List Value)
    (h : (k, arr) ∈ linkSideloaded env doc json) (hk : k ≠ doc) :
    ∃ arr1, (k, arr1) ∈ json
      ∧ (arr = arr1
        ∨ arr = linkAssociations env (env.models (reverseModelName k)) (.list arr1)) := by
  rw [linkSideloaded] at h
  obtain ⟨kv1, hmem, heq⟩ := List.mem_map.mp h
  obtain ⟨k1, arr1⟩ := kv1
  by_cases h1 : k1 = doc
  · rw [if_pos (by simp [h1])] at heq
    injection heq with hfst hsnd
    exact absurd (hfst ▸ h1) hk
  · rw [if_neg (by simp [h1])] at heq
    by_cases h2 : arr1.length > 0
    · rw [if_pos h2] at heq
      by_cases h3 : !(isNumOrStr (arr1.head?.getD .null))
      · rw [if_pos h3] at heq
        injection heq with hfst hsnd
        exact ⟨arr1, hfst ▸ hmem, Or.inr (hfst ▸ hsnd.symm)⟩
      · rw [if_neg h3] at heq
        injection heq with hfst hsnd
        exact ⟨arr1, hfst ▸ hmem, Or.inl hsnd.symm⟩
    · rw [if_neg h2] at heq
      injection heq with hfst hsnd
      exact ⟨arr1, hfst ▸ hmem, Or.inl hsnd.symm⟩

/-- C2: with `sideload = true`, every entry of the returned Document other
than the root key is a non-empty bucket with at most one entry per record
identifier; its identifier sequence is the first-occurrence deduplication
of some raw (pre-pass) bucket's identifier sequence, so duplicates keep
their first occurrence; buckets that ended processing empty were removed. -/
theorem c2_sideload_buckets (env : Env) (model : Model) (records : Value)
    (assocs : List Assoc) (arecs : Record) :
    ∀ k arr, (k, arr) ∈ buildResponse env model records assocs true arecs →
      k ≠ convertModelName model.globalId →
      arr ≠ []
      ∧ List.Pairwise (fun a b => jsEqO (getId a) (getId b) = false) arr
      ∧ ∃ raw, (k, raw) ∈ buildResponseRaw env model records assocs true arecs
          ∧ arr.map getId = dedupFirst (raw.map getId) := by
  intro k arr hmem hk
  rw [buildResponse, if_pos rfl] at hmem
  obtain ⟨arr1, hmem1, harr⟩ := mem_linkSideloaded env _ _ k arr hmem hk
  obtain ⟨raw0, hmem0, harr1, hraw0⟩ := mem_pruneAndDedup _ _ k arr1 hmem1 hk
  have hids1 : arr1.map getId = dedupFirst (raw0.map getId) := by
    rw [harr1, uniqById, dedupFirst, map_getId_uniqByIdAux]
  have hpw1 : List.Pairwise (fun a b => jsEqO (getId a) (getId b) = false) arr1 := by
    rw [harr1, uniqById]
    exact (uniqByIdAux_invariant raw0 []).2
  have hne1 : arr1 ≠ [] := harr1 ▸ uniqById_ne_nil raw0 hraw0
  cases harr with
  | inl he =>
    exact ⟨he ▸ hne1, he ▸ hpw1, raw0, hmem0, he ▸ hids1⟩
  | inr he =>
    have hids : arr.map getId = arr1.map getId := by
      rw [he, map_getId_linkAssociations]
    refine ⟨?_, ?_, raw0, hmem0, hids.trans hids1⟩
    · intro hnil
      have := length_linkAssociations env (env.models (reverseModelName k)) arr1
      rw [← he, hnil] at this
      exact hne1 (List.length_eq_zero.mp this.symm)
    · rw [he]
      rw [linkAssociations]
      show List.Pairwise _ (List.map _ (toArr (.list arr1)))
      rw [toArr]
      refine List.pairwise_map.mpr (hpw1.imp ?_)
      intro a b hab
      rw [getId_linkElem, getId_linkElem]
      exact hab

/-- C2 witness: the `comments` bucket of the concrete sideloaded run is
non-empty, duplicate-free by id, and its id sequence is the
first-occurrence dedup of its raw bucket's id sequence. -/
theorem c2_sideload_buckets_witness :
    ([.obj [("id", .num 9), ("links", .obj [("likes", .str "/api/comments/9/likes")])],
      .obj [("id", .num 10), ("links", .obj [("likes", .str "/api/comments/10/likes")])]]
        : List Value) ≠ []
    ∧ List.Pairwise (fun a b => jsEqO (getId a) (getId b) = false)
        ([.obj [("id", .num 9), ("links", .obj [("likes", .str "/api/comments/9/likes")])],
          .obj [("id", .num 10), ("links", .obj [("likes", .str "/api/comments/10/likes")])]]
            : List Value)
    ∧ ∃ raw, ("comments", raw) ∈ buildResponseRaw exampleEnv postModel rootRecord
          postAssocs true []
        ∧ ([.obj [("id", .num 9), ("links", .obj [("likes", .str "/api/comments/9/likes")])],
            .obj [("id", .num 10),
              ("links", .obj [("likes", .str "/api/comments/10/likes")])]]
              : List Value).map getId = dedupFirst (raw.map getId) :=
  c2_sideload_buckets exampleEnv postModel rootRecord postAssocs [] "comments"
    [.obj [("id", .num 9), ("links", .obj [("likes", .str "/api/comments/9/likes")])],
     .obj [("id", .num 10), ("links", .obj [("likes", .str "/api/comments/10/likes")])]]
    (by rw [show buildResponse exampleEnv postModel rootRecord postAssocs true [] =
        [("posts", [.obj [("id", .num 1), ("comments", .list [.num 9, .num 10])]]),
         ("comments",
          [.obj [("id", .num 9), ("links", .obj [("likes", .str "/api/comments/9/likes")])],
           .obj [("id", .num 10),
             ("links", .obj [("likes", .str "/api/comments/10/likes")])]])] from rfl]
        exact List.mem_cons_of_mem _ (List.mem_cons_self _ _))
    (by decide)

/-! ## Hyperlink policy (claim C3) -/

/-- One association-loop iteration touches, on the record and the pending
links map, only its own alias. -/
theorem assocRecStep_get_ne (env : Env) (side : Bool) (arecs : Record)
    (emb doc : String) (st : Record × Record) (b : Assoc) (key : String)
    (hkey : b.«alias» ≠ key) :
    Record.get (assocRecStep env side arecs emb doc st b).1 key = Record.get st.1 key
    ∧ Record.get (assocRecStep env side arecs emb doc st b).2 key = Record.get st.2 key := by
  have hne : key ≠ b.«alias» := Ne.symm hkey
  rw [assocRecStep]
  split_ifs <;>
    simp_all [Record.get_set_ne _ _ _ _ hne, Record.get_del_ne _ _ _ hne]

/-- The fold over a run of associations none of which aliases `key`
leaves `key` untouched in both components. -/
theorem foldl_recStep_get_preserved (env : Env) (side : Bool) (arecs : Record)
    (emb doc : String) (assocs : List Assoc) (key : String)
    (hk : ∀ x ∈ assocs, x.«alias» ≠ key) :
    ∀ st : Record × Record,
      Record.get (assocs.foldl (assocRecStep env side arecs emb doc) st).1 key
          = Record.get st.1 key
      ∧ Record.get (assocs.foldl (assocRecStep env side arecs emb doc) st).2 key
          = Record.get st.2 key := by
  induction assocs with
  | nil => intro st; exact ⟨rfl, rfl⟩
  | cons b bs ih =>
    intro st
    rw [List.foldl_cons]
    have hstep := assocRecStep_get_ne env side arecs emb doc st b key
      (hk b (List.mem_cons_self b bs))
    have hrest := ih (fun x hx => hk x (List.mem_cons_of_mem b hx))
      (assocRecStep env side arecs emb doc st b)
    exact ⟨hrest.1.trans hstep.1, hrest.2.trans hstep.2⟩

/-- The hyperlink-policy iteration itself: the alias field is deleted and
the pending links map receives the hyperlink built from the record's
current id. -/
theorem assocRecStep_link (env : Env) (side : Bool) (arecs : Record)
    (emb doc : String) (st : Record × Record) (b : Assoc)
    (hb : b.type = "collection") (hi : b.«include» = "link") :
    Record.get (assocRecStep env side arecs emb doc st b).1 b.«alias» = none
    ∧ Record.get (assocRecStep env side arecs emb doc st b).2 b.«alias»
        = some (.str (env.pfx ++ "/" ++ doc ++ "/" ++ jsStrO (Record.get st.1 "id")
            ++ "/" ++ b.«alias»)) := by
  rw [assocRecStep]
  simp only [hb, hi]
  simp [Record.get_del_self, Record.get_set_self]

/-- Through the whole association fold, a hyperlink-policy association's
alias ends deleted from the record while the links map holds its URL. -/
theorem foldl_recStep_link (env : Env) (side : Bool) (arecs : Record)
    (emb doc : String) (assocs : List Assoc)
    (hnd : (assocs.map (fun x => x.«alias»)).Nodup)
    (hid : ∀ x ∈ assocs, x.«alias» ≠ "id")
    (b : Assoc) (hmem : b ∈ assocs) (hb : b.type = "collection")
    (hi : b.«include» = "link") :
    ∀ st : Record × Record,
      Record.get (assocs.foldl (assocRecStep env side arecs emb doc) st).1 b.«alias» = none
      ∧ Record.get (assocs.foldl (assocRecStep env side arecs emb doc) st).2 b.«alias»
          = some (.str (env.pfx ++ "/" ++ doc ++ "/" ++ jsStrO (Record.get st.1 "id")
              ++ "/" ++ b.«alias»)) := by
  intro st
  obtain ⟨s, t, rfl⟩ := List.append_of_mem hmem
  rw [List.foldl_append, List.foldl_cons]
  have hknd : ∀ x ∈ t, x.«alias» ≠ b.«alias» := by
    intro x hx heq
    rw [List.map_append, List.map_cons] at hnd
    have h2 := (List.nodup_append.mp hnd).2.1
    rw [List.nodup_cons] at h2
    exact h2.1 (heq ▸ List.mem_map_of_mem (fun x => x.«alias») hx)
  have hpre := foldl_recStep_get_preserved env side arecs emb doc s "id"
    (fun x hx => hid x (List.mem_append_left _ hx)) st
  have hstep := assocRecStep_link env side arecs emb doc
    (List.foldl (assocRecStep env side arecs emb doc) st s) b hb hi
  have hpost := foldl_recStep_get_preserved env side arecs emb doc t b.«alias» hknd
    (assocRecStep env side arecs emb doc
      (List.foldl (assocRecStep env side arecs emb doc) st s) b)
  refine ⟨hpost.1.trans hstep.1, hpost.2.trans (hstep.2.trans ?_)⟩
  rw [hpre.1]

/-- The root bucket of the raw Document is exactly the per-record results,
in input order. -/
theorem getD_buildResponseRaw_doc (env : Env) (model : Model) (records : Value)
    (assocs : List Assoc) (side : Bool) (arecs : Record) :
    Document.getD (buildResponseRaw env model records assocs side arecs)
        (convertModelName model.globalId)
      = (if records.isArr then toListVal records else [records]).map
          (preparedRecord env side arecs model.globalId
            (convertModelName model.globalId) assocs) := by
  have hbase : Document.getD
      (if side then List.foldl (regStep env) [(convertModelName model.globalId, [])] assocs
       else [(convertModelName model.globalId, [])])
      (convertModelName model.globalId) = [] := by
    by_cases hside : side
    · simp only [hside, if_true]
      exact reg_getD_doc env _ assocs _ (by simp [Document.getD])
    · simp only [hside, Bool.false_eq_true, if_false]
      simp [Document.getD]
  have hfold : ∀ (rs : List Value) (json : Document),
      Document.getD (rs.foldl (recordFold env side arecs model.globalId
        (convertModelName model.globalId) assocs) json) (convertModelName model.globalId)
        = Document.getD json (convertModelName model.globalId)
          ++ rs.map (preparedRecord env side arecs model.globalId
              (convertModelName model.globalId) assocs) := by
    intro rs
    induction rs with
    | nil => intro json; simp
    | cons r rs2 ih =>
      intro json
      rw [List.foldl_cons, ih]
      rw [recordFold]
      simp only [Document.getD_set_self, prepareOneRecord_snd, List.map_cons]
      rw [List.append_assoc, List.singleton_append]
  rw [buildResponseRaw]
  by_cases hp : records.isArr
  · simp only [hp, if_true]
    rw [hfold, hbase, List.nil_append]
  · simp only [hp, Bool.false_eq_true, if_false]
    simp only [Document.getD_set_self, prepareOneRecord_snd, List.map_cons, List.map_nil]

/-- C3: for every record `buildResponse` builds and every
collection-reference association with hyperlink policy (assuming the
well-formedness every Sails model guarantees — pairwise-distinct aliases,
none of them named `id` or `links`): the association's alias is absent
from the output record, and its `links` entry equals
`<blueprint-prefix>/<root-document-key>/<record-id>/<alias>`; the
hyperlink never coexists with an inline value for the association. -/
theorem c3_hyperlink_policy (env : Env) (model : Model) (records : Value)
    (assocs : List Assoc) (side : Bool) (arecs : Record)
    (hnd : (assocs.map (fun x => x.«alias»)).Nodup)
    (hid : ∀ x ∈ assocs, x.«alias» ≠ "id")
    (hlk : ∀ x ∈ assocs, x.«alias» ≠ "links") :
    ∀ r ∈ Document.getD (buildResponse env model records assocs side arecs)
        (convertModelName model.globalId),
      ∀ b ∈ assocs, b.type = "collection" → b.«include» = "link" →
        r.getField b.«alias» = none
        ∧ ∃ L, r.getField "links" = some (.obj L)
            ∧ Record.get L b.«alias» = some (.str (env.pfx ++ "/"
                ++ convertModelName model.globalId ++ "/"
                ++ jsStrO (r.getField "id") ++ "/" ++ b.«alias»)) := by
  intro r hr b hbmem hb hi
  rw [getD_buildResponse, getD_buildResponseRaw_doc] at hr
  obtain ⟨rec, _, hprep⟩ := List.mem_map.mp hr
  have hfold := foldl_recStep_link env side arecs model.globalId
    (convertModelName model.globalId) assocs hnd hid b hbmem hb hi
    (rec.toRecord, [])
  have hlkb : b.«alias» ≠ "links" := hlk b hbmem
  have hidb : b.«alias» ≠ "id" := hid b hbmem
  have hidpre := foldl_recStep_get_preserved env side arecs model.globalId
    (convertModelName model.globalId) assocs "id" hid (rec.toRecord, [])
  rw [preparedRecord] at hprep
  have hlen : (List.foldl (assocRecStep env side arecs model.globalId
      (convertModelName model.globalId)) (rec.toRecord, []) assocs).2.length > 0 :=
    Record.get_eq_some_ne_nil _ _ _ hfold.2
  rw [if_pos hlen] at hprep
  subst hprep
  set st1 := List.foldl (assocRecStep env side arecs model.globalId
      (convertModelName model.globalId)) (rec.toRecord, []) assocs with hst
  constructor
  · show Record.get (Record.set st1.1 "links" (.obj st1.2)) b.«alias» = none
    rw [Record.get_set_ne _ _ _ _ hlkb]
    exact hfold.1
  · refine ⟨st1.2, ?_, ?_⟩
    · show Record.get (Record.set st1.1 "links" (.obj st1.2)) "links" = some (.obj st1.2)
      rw [Record.get_set_self]
    · rw [hfold.2]
      have hidr : Value.getField (.obj (Record.set st1.1 "links" (.obj st1.2))) "id"
          = Record.get rec.toRecord "id" := by
        show Record.get (Record.set st1.1 "links" (.obj st1.2)) "id" = _
        rw [Record.get_set_ne _ _ _ _ (by decide)]
        exact hidpre.1
      rw [hidr]

/-- C3 witness: a hyperlink-policy association on a concrete record — the
`comments` field is gone and `links.comments` holds the URL. -/
theorem c3_hyperlink_policy_witness :
    (Value.obj [("id", .num 1),
        ("links", .obj [("comments", .str "/api/posts/1/comments")])]).getField
        "comments" = none
    ∧ ∃ L, (Value.obj [("id", .num 1),
          ("links", .obj [("comments", .str "/api/posts/1/comments")])]).getField
          "links" = some (.obj L)
        ∧ Record.get L "comments" = some (.str "/api/posts/1/comments") := by
  have h := c3_hyperlink_policy exampleEnv postModel rootRecord
    [{ «alias» := "comments", type := "collection", collection := "comment",
       via := "post", «include» := "link" }] false []
    (by decide) (by decide) (by decide)
    (.obj [("id", .num 1), ("links", .obj [("comments", .str "/api/posts/1/comments")])])
    (by rw [show Document.getD (buildResponse exampleEnv postModel rootRecord
          [{ «alias» := "comments", type := "collection", collection := "comment",
             via := "post", «include» := "link" }] false [])
          (convertModelName postModel.globalId)
        = [.obj [("id", .num 1),
            ("links", .obj [("comments", .str "/api/posts/1/comments")])]] from rfl]
        exact List.mem_singleton_self _)
    { «alias» := "comments", type := "collection", collection := "comment",
      via := "post", «include» := "link" }
    (List.mem_cons_self _ _) rfl rfl
  exact h

/-! ## Reference-level model of record mutation (claim C8)

The value-level embedding above cannot observe aliasing, so the frame
claim is settled on a small heap model of the same source lines: records
live in a store, a record's collection-association field holds an array
of references into the store, `_.create({}, record.toJSON())` copies the
top-level record shallowly (the copy still holds the same references),
and `linkAssociations` (source line 61, `record.links = links`) writes
through those references into the store. -/

inductive HVal where
  | prim : Value → HVal
  | refs : List Nat → HVal

/-- A heap record: fields are primitives or reference arrays. -/
abbrev HRecord := List (String × HVal)

def HRecord.get : HRecord → String → Option HVal
  | [], _ => none
  | (k, v) :: rest, key => if k == key then some v else HRecord.get rest key

def HRecord.set : HRecord → String → HVal → HRecord
  | [], key, v => [(key, v)]
  | (k, w) :: rest, key, v =>
    if k == key then (k, v) :: rest else (k, w) :: HRecord.set rest key v

/-- The store of live record objects, addressed by position. -/
abbrev Store := List HRecord

def Store.getD : Store → Nat → HRecord
  | [], _ => []
  | r :: _, 0 => r
  | _ :: rest, n + 1 => Store.getD rest n

def Store.upd : Store → Nat → HRecord → Store
  | [], _, _ => []
  | _ :: rest, 0, r => r :: rest
  | r0 :: rest, n + 1, r => r0 :: Store.upd rest n r

def hJsStr : Option HVal → String
  | some (.prim v) => jsStrO (some v)
  | some (.refs _) => ""
  | none => "undefined"

/-- The links map `linkAssociations` builds for one heap record. -/
def hRecordLinks (env : Env) (modelPlural : String) (associations : List Assoc)
    (r : HRecord) : Record :=
  associations.foldl
    (fun links assoc =>
      if assoc.type == "collection" then
        Record.set links assoc.«alias»
          (.str (env.pfx ++ "/" ++ modelPlural ++ "/" ++ hJsStr (HRecord.get r "id")
            ++ "/" ++ assoc.«alias»))
      else links)
    []

/-- Heap-level `linkAssociations` over an array of record references
(source lines 53–64): `record.links = links` mutates each referenced
record in place. -/
def linkAssociationsH (env : Env) (model : Model) (store : Store)
    (addrs : List Nat) : Store :=
  let modelPlural := convertModelName model.identity
  addrs.foldl
    (fun st a =>
      let r := Store.getD st a
      let links := hRecordLinks env modelPlural model.associations r
      if links.length > 0 then Store.upd st a (HRecord.set r "links" (.prim (.obj links)))
      else st)
    store

/-- The references a record field holds. -/
def refsAt (r : HRecord) (key : String) : List Nat :=
  match HRecord.get r key with
  | some (.refs addrs) => addrs
  | _ => []

/-- Every reference held by any field of the record. -/
def allRefs (r : HRecord) : List Nat :=
  r.foldr
    (fun p acc =>
      match p.2 with
      | .refs l => l ++ acc
      | _ => acc)
    []

/-- Heap-level model of `prepareOneRecord`'s embed-record collection path
(source lines 101–124): clone the record shallowly (the clone shares the
child references with the caller's object), hyperlink the referenced
children in place through the store, then collapse the clone's field to
the children's ids. -/
def prepareOneRecordH (env : Env) (sideload : Bool) (associations : List Assoc)
    (store : Store) (addr : Nat) : Store × HRecord :=
  associations.foldl
    (fun st assoc =>
      if assoc.type == "collection" && sideload && assoc.«include» == "record"
          && !(refsAt st.2 assoc.«alias»).isEmpty then
        let addrs := refsAt st.2 assoc.«alias»
        let st1 := linkAssociationsH env (env.models assoc.collection) st.1 addrs
        let rec1 := HRecord.set st.2 assoc.«alias»
          (.prim (.list (addrs.map (fun a =>
            match HRecord.get (Store.getD st1 a) "id" with
            | some (.prim v) => v
            | _ => .null))))
        (st1, rec1)
      else st)
    (store, Store.getD store addr)

/-- A concrete heap: the caller's root record at address 0 referencing two
comment records at addresses 1 and 2. -/
def c8Store : Store :=
  [[("id", .prim (.num 1)), ("comments", .refs [1, 2])],
   [("id", .prim (.num 9))],
   [("id", .prim (.num 10))]]

theorem Store.getD_upd_ne (st : Store) :
    ∀ (a b : Nat) (r : HRecord), a ≠ b →
      Store.getD (Store.upd st b r) a = Store.getD st a := by
  induction st with
  | nil => intro a b r _; rfl
  | cons r0 rest ih =>
    intro a b r hab
    cases b with
    | zero =>
      cases a with
      | zero => exact absurd rfl hab
      | succ a2 => rfl
    | succ b2 =>
      cases a with
      | zero => rfl
      | succ a2 => exact ih a2 b2 r (fun h => hab (by rw [h]))

/-- `linkAssociationsH` writes only at the given addresses. -/
theorem linkAssociationsH_getD_ne (env : Env) (model : Model) (addrs : List Nat)
    (a : Nat) (ha : a ∉ addrs) :
    ∀ store : Store,
      Store.getD (linkAssociationsH env model store addrs) a = Store.getD store a := by
  have main : ∀ (l : List Nat), a ∉ l → ∀ store : Store,
      Store.getD (l.foldl
        (fun st a2 =>
          let r := Store.getD st a2
          let links := hRecordLinks env (convertModelName model.identity)
            model.associations r
          if links.length > 0 then
            Store.upd st a2 (HRecord.set r "links" (.prim (.obj links)))
          else st)
        store) a = Store.getD store a := by
    intro l
    induction l with
    | nil => intro _ store; rfl
    | cons b bs ih =>
      intro hl store
      have hab : a ≠ b := fun h => hl (h ▸ List.mem_cons_self b bs)
      have hbs : a ∉ bs := fun h => hl (List.mem_cons_of_mem b h)
      rw [List.foldl_cons, ih hbs]
      by_cases h : (hRecordLinks env (convertModelName model.identity) model.associations
          (Store.getD store b)).length > 0
      · simp only
        rw [if_pos h, Store.getD_upd_ne store a b _ hab]
      · simp only
        rw [if_neg h]
  intro store
  exact main addrs ha store

/-- A field's references are among the record's references. -/
theorem refsAt_subset_allRefs (r : HRecord) (key : String) :
    ∀ x ∈ refsAt r key, x ∈ allRefs r := by
  induction r with
  | nil => intro x hx; simp [refsAt, HRecord.get] at hx
  | cons p rest ih =>
    obtain ⟨k, v⟩ := p
    intro x hx
    rw [refsAt] at hx
    by_cases h : k == key
    · rw [HRecord.get, if_pos h] at hx
      cases v with
      | prim w => simp at hx
      | refs l =>
        simp only at hx
        show x ∈ allRefs ((k, .refs l) :: rest)
        simp only [allRefs, List.foldr_cons]
        exact List.mem_append_left _ hx
    · rw [HRecord.get, if_neg h] at hx
      have hx2 : x ∈ allRefs rest := ih x hx
      show x ∈ allRefs ((k, v) :: rest)
      simp only [allRefs, List.foldr_cons] at hx2 ⊢
      cases v with
      | prim w => exact hx2
      | refs l => exact List.mem_append_right _ hx2

/-- Overwriting a field with a primitive removes references but never adds
any. -/
theorem allRefs_set_prim (r : HRecord) (key : String) (v : Value) :
    ∀ x ∈ allRefs (HRecord.set r key (.prim v)), x ∈ allRefs r := by
  induction r with
  | nil =>
    intro x hx
    simp [HRecord.set, allRefs] at hx
  | cons p rest ih =>
    obtain ⟨k, w⟩ := p
    intro x hx
    rw [HRecord.set] at hx
    by_cases h : k == key
    · rw [if_pos h] at hx
      simp only [allRefs, List.foldr_cons] at hx ⊢
      cases w with
      | prim w2 => exact hx
      | refs l => exact List.mem_append_right _ hx
    · rw [if_neg h] at hx
      simp only [allRefs, List.foldr_cons] at hx ⊢
      cases w with
      | prim w2 => exact ih x hx
      | refs l =>
        rcases List.mem_append.mp hx with h2 | h2
        · exact List.mem_append_left _ h2
        · exact List.mem_append_right _ (ih x h2)

/-- C8 counterexample: on the concrete heap, the call mutates the caller's
nested comment record at address 1 in place (it gains a `links` field), so
the claim that all caller-owned objects — including nested association
records reachable from the input — stay unmodified is false. -/
theorem c8_counterexample_child_mutated :
    ((Store.getD (prepareOneRecordH exampleEnv true postAssocs c8Store 0).1 1).get
        "links").isSome = true
    ∧ ((Store.getD c8Store 1).get "links").isSome = false
    ∧ (prepareOneRecordH exampleEnv true postAssocs c8Store 0).1 ≠ c8Store := by
  refine ⟨rfl, rfl, fun h => ?_⟩
  have h2 := congrArg
    (fun st => ((Store.getD st 1).get "links").isSome) h
  exact absurd h2 (by decide)

/-- C8 (amended): the shallow clone protects exactly the caller's
top-level record objects — the call's heap writes all go through the
references held by the cloned record's association fields, so every heap
object not referenced from the input record (in particular the top-level
record itself, absent self-reference) is left unmodified; the referenced
nested association records, by contrast, are mutated in place by
hyperlink attachment. -/
theorem c8_clone_frame (env : Env) (side : Bool) (assocs : List Assoc)
    (store : Store) (addr : Nat) (a : Nat)
    (ha : a ∉ allRefs (Store.getD store addr)) :
    Store.getD (prepareOneRecordH env side assocs store addr).1 a
      = Store.getD store a := by
  rw [prepareOneRecordH]
  have main : ∀ (bs : List Assoc) (st : Store × HRecord), a ∉ allRefs st.2 →
      Store.getD (bs.foldl (fun st assoc =>
        if assoc.type == "collection" && side && assoc.«include» == "record"
            && !(refsAt st.2 assoc.«alias»).isEmpty then
          let addrs := refsAt st.2 assoc.«alias»
          let st1 := linkAssociationsH env (env.models assoc.collection) st.1 addrs
          let rec1 := HRecord.set st.2 assoc.«alias»
            (.prim (.list (addrs.map (fun a2 =>
              match HRecord.get (Store.getD st1 a2) "id" with
              | some (.prim v) => v
              | _ => .null))))
          (st1, rec1)
        else st) st).1 a = Store.getD st.1 a := by
    intro bs
    induction bs with
    | nil => intro st _; rfl
    | cons b bs2 ih =>
      intro st hst
      rw [List.foldl_cons]
      by_cases hc : (b.type == "collection" && side && b.«include» == "record"
          && !(refsAt st.2 b.«alias»).isEmpty) = true
      · rw [if_pos hc]
        have haddr : a ∉ refsAt st.2 b.«alias» :=
          fun h => hst (refsAt_subset_allRefs st.2 b.«alias» a h)
        refine (ih _ ?_).trans ?_
        · exact fun h => hst (allRefs_set_prim st.2 b.«alias» _ a h)
        · exact linkAssociationsH_getD_ne env (env.models b.collection) _ a haddr st.1
      · rw [if_neg hc]
        exact ih st hst
  exact main assocs (store, Store.getD store addr) ha

/-- C8 amended-claim witness: on the concrete heap the top-level record at
address 0 (not referenced by itself) is untouched. -/
theorem c8_clone_frame_witness :
    Store.getD (prepareOneRecordH exampleEnv true postAssocs c8Store 0).1 0
      = Store.getD c8Store 0 :=
  c8_clone_frame exampleEnv true postAssocs c8Store 0 0 (by decide)

end Ember
